import Mathlib

/-!
Shallow embedding of the hierarchical summarization engine of
src/generate-summaries.py: the length planner (determine_max_length),
the chunked recursive reducer (summarize_in_chunks) and the two-pass
driver (summarize_text).  Python strings are modelled as lists of
characters, the summarization pipeline as an opaque oracle function,
and the unbounded Python recursion of summarize_in_chunks is made
total with an explicit fuel parameter (fuel exhaustion yields none).
Python whitespace is modelled by its ASCII subset.  All definitions
are structurally recursive so that they evaluate inside the kernel.
-/

namespace GenSum

/-- Whitespace test modelling the default whitespace of Python
str.strip and str.split (ASCII subset: space, tab, newline, carriage
return, vertical tab, form feed). -/
def isSpace (c : Char) : Bool :=
  c = ' ' || c = '\t' || c = '\n' || c = '\r' || c = Char.ofNat 11 || c = Char.ofNat 12

/-- Documents are character sequences, as in the Python code. -/
abbrev Doc := List Char

/-- Python text.strip(): drop whitespace from both ends. -/
def pyStrip (l : Doc) : Doc :=
  ((l.dropWhile isSpace).reverse.dropWhile isSpace).reverse

/-- Worker for pySplit: acc holds the reversed current run of
non-whitespace characters (empty when between runs). -/
def pySplitAux : List Char → List Char → List Doc
  | [], acc => if acc = [] then [] else [acc.reverse]
  | c :: rest, acc =>
    if isSpace c then
      if acc = [] then pySplitAux rest []
      else acc.reverse :: pySplitAux rest []
    else pySplitAux rest (c :: acc)

/-- Python text.split() with no separator argument: the maximal runs
of non-whitespace characters, in order, empties discarded. -/
def pySplit (l : Doc) : List Doc := pySplitAux l []

/-- determine_max_length from the source (src/generate-summaries.py,
lines 41-56): the word count is len(text.split()) and the result is
min(default_max, max(word_count, min_length)). -/
def determine_max_length (text : Doc) (default_max min_length : Int) : Int :=
  min default_max (max ((pySplit text).length : Int) min_length)

/-- One step of the specification-side word counter: a run of
non-whitespace characters is counted once, at its first character. -/
def runStep (acc : Nat × Bool) (c : Char) : Nat × Bool :=
  if isSpace c then (acc.1, false)
  else if acc.2 then acc else (acc.1 + 1, true)

/-- Specification-side word count: the number of maximal runs of
non-whitespace characters, computed by a single left fold. -/
def runCount (l : Doc) : Nat := (l.foldl runStep (0, false)).1

/-- Worker for chunksOf: emit k slices of width n, starting at the
front of l and advancing by n characters each time. -/
def chunksOfGo (n : Nat) : Nat → Doc → List Doc
  | 0, _ => []
  | k + 1, l => l.take n :: chunksOfGo n k (l.drop n)

/-- The chunking comprehension of the source (lines 82 and 128):
text[i:i+chunk_size] for i in range(0, len(text), chunk_size).  The
range has ceil(len/n) elements; Python raises on chunk_size 0, which
is modelled as producing no chunks. -/
def chunksOf (n : Nat) (l : Doc) : List Doc :=
  chunksOfGo n ((l.length + n - 1) / n) l

/-- Python " ".join: concatenate with single-space separators. -/
def joinSpace : List Doc → Doc
  | [] => []
  | [s] => s
  | s :: t :: rest => s ++ ' ' :: joinSpace (t :: rest)

/-- One invocation of the summarization pipeline, as observed at a
call site: the text argument, the two length arguments, and the
do_sample flag. -/
structure OracleCall where
  text : Doc
  max_length : Int
  min_length : Int
  do_sample : Bool
deriving DecidableEq, Repr

/-- The summarization pipeline as an opaque function of the arguments
the code passes to it. -/
abbrev Oracle := Doc → Int → Int → Bool → Doc

/-- The sentinel string returned for empty input. -/
def sentinel : Doc := "No content to summarize.".data

/-- The per-chunk loop shared by both entry points (lines 85-92 and
132-138): strip each chunk, skip it when empty, otherwise summarize
it with a per-chunk planned max_length.  Returns the collected
summaries and the oracle calls made, both in chunk order. -/
def chunkPass (oracle : Oracle) (default_max_length min_length : Int) :
    List Doc → List Doc × List OracleCall
  | [] => ([], [])
  | c :: rest =>
    let c2 := pyStrip c
    if c2 = [] then chunkPass oracle default_max_length min_length rest
    else
      let cml := determine_max_length c2 default_max_length min_length
      let r := chunkPass oracle default_max_length min_length rest
      (oracle c2 cml min_length false :: r.1, ⟨c2, cml, min_length, false⟩ :: r.2)

/-- summarize_in_chunks from the source (lines 58-103), with fuel
bounding the recursion depth (the Python original recurses without
bound; none models a run needing more depth than the given fuel).
Returns the summary together with the trace of oracle calls. -/
def summarize_in_chunks (oracle : Oracle) :
    Nat → Doc → Nat → Int → Int → Option (Doc × List OracleCall)
  | 0, _, _, _, _ => none
  | fuel + 1, text0, chunk_size, default_max_length, min_length =>
    let text := pyStrip text0
    if text = [] then some (sentinel, [])
    else
      let max_length := determine_max_length text default_max_length min_length
      if text.length ≤ chunk_size then
        some (oracle text max_length min_length false, [⟨text, max_length, min_length, false⟩])
      else
        let pass := chunkPass oracle default_max_length min_length (chunksOf chunk_size text)
        let combined_text := joinSpace pass.1
        if chunk_size < combined_text.length then
          (summarize_in_chunks oracle fuel combined_text chunk_size default_max_length
              min_length).map (fun r => (r.1, pass.2 ++ r.2))
        else
          let final_max_length := determine_max_length combined_text default_max_length min_length
          some (oracle combined_text final_max_length min_length false,
            pass.2 ++ [⟨combined_text, final_max_length, min_length, false⟩])

/-- summarize_text from the source (lines 105-154): one unconditional
chunk-and-summarize pass, then delegation to summarize_in_chunks on
the combined intermediate summaries.  The fuel is passed through to
the delegated recursive reducer. -/
def summarize_text (oracle : Oracle) (fuel : Nat) (text0 : Doc) (chunk_size : Nat)
    (intermediate_summary_length final_summary_length : Int) :
    Option (Doc × List OracleCall) :=
  let text := pyStrip text0
  if text = [] then some (sentinel, [])
  else
    let pass := chunkPass oracle intermediate_summary_length 50 (chunksOf chunk_size text)
    if pass.1 = [] then some (sentinel, pass.2)
    else
      (summarize_in_chunks oracle fuel (joinSpace pass.1) chunk_size
          final_summary_length 50).map (fun r => (r.1, pass.2 ++ r.2))

/-- A document with at least one non-whitespace character, i.e. one
that is neither empty nor whitespace-only. -/
def hasContent (l : Doc) : Prop := ∃ c ∈ l, isSpace c = false

/-- Test oracle returning the fixed summary "ok". -/
def constOk : Oracle := fun _ _ _ _ => "ok".data

/-- Test oracle returning the fixed one-word summary "a". -/
def constA : Oracle := fun _ _ _ _ => "a".data

/-- Test oracle returning the empty summary. -/
def constEmpty : Oracle := fun _ _ _ _ => []

/-- Test oracle that behaves like constOk under deterministic decoding
but differs when sampling is requested. -/
def flipOracle : Oracle := fun _ _ _ s => if s then "zzz".data else "ok".data

lemma foldl_runStep (l : Doc) : ∀ n : Nat,
    (l.foldl runStep (n, false)).1 = n + (pySplitAux l []).length ∧
    ∀ acc : List Char, acc ≠ [] →
      (l.foldl runStep (n, true)).1 + 1 = n + (pySplitAux l acc).length := by
  induction l with
  | nil =>
    intro n
    refine ⟨by simp [pySplitAux], ?_⟩
    intro acc hacc
    simp [pySplitAux, hacc]
  | cons c rest ih =>
    intro n
    cases hc : isSpace c with
    | true =>
      constructor
      · simp [runStep, hc, pySplitAux, (ih n).1]
      · intro acc hacc
        simp [runStep, hc, pySplitAux, hacc, (ih n).1]
        omega
    | false =>
      constructor
      · have hb := (ih (n + 1)).2 [c] (by simp)
        simp only [List.foldl_cons, runStep, hc] at hb ⊢
        simp only [Bool.false_eq_true, if_false, pySplitAux, hc]
        omega
      · intro acc hacc
        have hb := (ih n).2 (c :: acc) (by simp)
        simp only [List.foldl_cons, runStep, hc] at hb ⊢
        simp [pySplitAux, hc]
        omega

lemma runCount_eq (l : Doc) : runCount l = (pySplit l).length := by
  have h := (foldl_runStep l 0).1
  simpa [runCount, pySplit] using h

/-- Claim C1: determine_max_length returns exactly min(default_max,
max(word_count, min_length)) where word_count is the number of maximal
runs of non-whitespace characters, and on "one two three" with
default_max 500 and min_length 50 it returns 50. -/
theorem C1_length_planner (text : Doc) (dm ml : Int) :
    determine_max_length text dm ml = min dm (max (runCount text : Int) ml) ∧
    determine_max_length ("one two three".data) 500 50 = 50 := by
  refine ⟨?_, by decide⟩
  simp [determine_max_length, runCount_eq]

lemma dropWhile_head_false {q : Char → Bool} :
    ∀ (l : List Char) (x : Char) (rest : List Char),
      l.dropWhile q = x :: rest → q x = false := by
  intro l
  induction l with
  | nil => intro x rest h; simp [List.dropWhile] at h
  | cons c cs ih =>
    intro x rest h
    rw [List.dropWhile_cons] at h
    by_cases hq : q c
    · exact ih x rest (by simpa [hq] using h)
    · simp [hq] at h
      rw [← h.1]
      simpa using hq

lemma dropWhile_of_head_false {q : Char → Bool} (l : List Char)
    (h : ∀ x rest, l = x :: rest → q x = false) : l.dropWhile q = l := by
  cases l with
  | nil => rfl
  | cons c cs => rw [List.dropWhile_cons]; simp [h c cs rfl]

lemma dropWhile_dropWhile {q : Char → Bool} (l : List Char) :
    (l.dropWhile q).dropWhile q = l.dropWhile q :=
  dropWhile_of_head_false _ (fun x rest h => dropWhile_head_false l x rest h)

lemma length_dropWhile_le {q : Char → Bool} (l : List Char) :
    (l.dropWhile q).length ≤ l.length := by
  conv_rhs => rw [← List.takeWhile_append_dropWhile q l]
  rw [List.length_append]
  omega

lemma pyStrip_length_le (l : Doc) : (pyStrip l).length ≤ l.length := by
  unfold pyStrip
  calc ((l.dropWhile isSpace).reverse.dropWhile isSpace).reverse.length
      = ((l.dropWhile isSpace).reverse.dropWhile isSpace).length := List.length_reverse _
    _ ≤ (l.dropWhile isSpace).reverse.length := length_dropWhile_le _
    _ = (l.dropWhile isSpace).length := List.length_reverse _
    _ ≤ l.length := length_dropWhile_le _

lemma pyStrip_eq_nil_iff (l : Doc) : pyStrip l = [] ↔ ∀ c ∈ l, isSpace c = true := by
  unfold pyStrip
  rw [List.reverse_eq_nil_iff, List.dropWhile_eq_nil_iff]
  constructor
  · intro h c hc
    rcases (List.mem_append).1
        ((List.takeWhile_append_dropWhile isSpace l ▸ hc : c ∈ _)) with h1 | h1
    · exact List.mem_takeWhile_imp h1
    · exact h c (List.mem_reverse.2 h1)
  · intro h c hc
    exact h c ((List.dropWhile_sublist isSpace).subset (List.mem_reverse.1 hc))

lemma pyStrip_content (l : Doc) (h : pyStrip l ≠ []) :
    ∃ c ∈ pyStrip l, isSpace c = false := by
  unfold pyStrip at *
  cases hB : (l.dropWhile isSpace).reverse.dropWhile isSpace with
  | nil => rw [hB] at h; simp at h
  | cons x rest =>
    refine ⟨x, ?_, dropWhile_head_false _ x rest hB⟩
    simp

lemma pyStrip_idem (l : Doc) : pyStrip (pyStrip l) = pyStrip l := by
  unfold pyStrip
  have h1 : ((l.dropWhile isSpace).reverse.dropWhile isSpace).reverse.dropWhile isSpace
      = ((l.dropWhile isSpace).reverse.dropWhile isSpace).reverse := by
    apply dropWhile_of_head_false
    intro x rest hx
    have hgl : ((l.dropWhile isSpace).reverse.dropWhile isSpace).getLast? = some x := by
      rw [← List.head?_reverse, hx]
      rfl
    have hA : (l.dropWhile isSpace).reverse.getLast? = some x := by
      conv_lhs => rw [← List.takeWhile_append_dropWhile isSpace (l.dropWhile isSpace).reverse]
      rw [List.getLast?_append, hgl]
      rfl
    have hAh : (l.dropWhile isSpace).head? = some x := by
      rw [← List.getLast?_reverse]; exact hA
    cases hAc : l.dropWhile isSpace with
    | nil => rw [hAc] at hAh; simp at hAh
    | cons y ys =>
      rw [hAc] at hAh
      simp at hAh
      rw [← hAh]
      exact dropWhile_head_false l y ys hAc
  rw [h1, List.reverse_reverse, dropWhile_dropWhile]

lemma chunksOfGo_length (n k : Nat) : ∀ l : Doc, (chunksOfGo n k l).length = k := by
  induction k with
  | zero => intro l; rfl
  | succ k ih => intro l; simp [chunksOfGo, ih]

lemma chunksOf_length (n : Nat) (l : Doc) :
    (chunksOf n l).length = (l.length + n - 1) / n := by
  unfold chunksOf
  exact chunksOfGo_length n _ l

lemma ceil_div_eq (n L : Nat) (hL : 0 < L) (hn : 0 < n) :
    (L + n - 1) / n = (L - 1) / n + 1 := by
  have h : L + n - 1 = (L - 1) + n := by omega
  rw [h, Nat.add_div_right _ hn]

lemma ceil_mul_ge (n L : Nat) (hn : 0 < n) : L ≤ ((L + n - 1) / n) * n := by
  cases L with
  | zero => simp
  | succ m =>
    rw [ceil_div_eq n (m + 1) (by omega) hn]
    simp only [Nat.add_sub_cancel]
    rw [Nat.succ_mul]
    have hdm : n * (m / n) + m % n = m := Nat.div_add_mod m n
    have hr : m % n < n := Nat.mod_lt m hn
    have hcomm : m / n * n = n * (m / n) := Nat.mul_comm _ _
    linarith

lemma chunksOfGo_flatten (n : Nat) : ∀ (k : Nat) (l : Doc), l.length ≤ k * n →
    (chunksOfGo n k l).flatten = l := by
  intro k
  induction k with
  | zero =>
    intro l h
    simp at h
    subst h
    rfl
  | succ k ih =>
    intro l h
    simp only [chunksOfGo, List.flatten_cons]
    rw [ih (l.drop n) (by rw [List.length_drop]; rw [Nat.succ_mul] at h; omega)]
    exact List.take_append_drop n l

lemma chunksOf_flatten (n : Nat) (l : Doc) (hn : 0 < n) :
    (chunksOf n l).flatten = l := by
  unfold chunksOf
  exact chunksOfGo_flatten n _ l (ceil_mul_ge n l.length hn)

lemma chunksOfGo_mem_length_le (n : Nat) : ∀ (k : Nat) (l : Doc) (c : Doc),
    c ∈ chunksOfGo n k l → c.length ≤ n := by
  intro k
  induction k with
  | zero => intro l c h; simp [chunksOfGo] at h
  | succ k ih =>
    intro l c h
    simp only [chunksOfGo, List.mem_cons] at h
    rcases h with h | h
    · rw [h, List.length_take]; omega
    · exact ih _ c h

lemma chunksOf_mem_length_le (n : Nat) (l : Doc) (c : Doc)
    (h : c ∈ chunksOf n l) : c.length ≤ n :=
  chunksOfGo_mem_length_le n _ l c h

lemma chunksOfGo_dropLast_full (n : Nat) : ∀ (k : Nat) (l : Doc),
    k * n ≤ l.length →
    ∀ c ∈ (chunksOfGo n (k + 1) l).dropLast, c.length = n := by
  intro k
  induction k with
  | zero => intro l hl c hc; simp [chunksOfGo] at hc
  | succ k ih =>
    intro l hl c hc
    have hne : chunksOfGo n (k + 1) (l.drop n) ≠ [] := by
      intro hx
      have := chunksOfGo_length n (k + 1) (l.drop n)
      rw [hx] at this
      simp at this
    have hstep : chunksOfGo n (k + 1 + 1) l = l.take n :: chunksOfGo n (k + 1) (l.drop n) := rfl
    rw [hstep, List.dropLast_cons_of_ne_nil hne] at hc
    rcases List.mem_cons.1 hc with h | h
    · rw [h, List.length_take]
      rw [Nat.succ_mul] at hl
      have : n ≤ l.length := by
        have hkn : 0 ≤ k * n := Nat.zero_le _
        omega
      omega
    · refine ih (l.drop n) ?_ c h
      rw [List.length_drop]
      rw [Nat.succ_mul] at hl
      omega

lemma chunksOf_dropLast_full (n : Nat) (l : Doc) (hn : 0 < n) (hl : l ≠ [])
    (c : Doc) (hc : c ∈ (chunksOf n l).dropLast) : c.length = n := by
  have hL : 0 < l.length := List.length_pos.2 hl
  have hceil : (l.length + n - 1) / n = (l.length - 1) / n + 1 := ceil_div_eq n _ hL hn
  unfold chunksOf at hc
  rw [hceil] at hc
  refine chunksOfGo_dropLast_full n _ l ?_ c hc
  have := Nat.div_mul_le_self (l.length - 1) n
  omega

lemma chunksOf_ne_nil (n : Nat) (l : Doc) (hn : 0 < n) (hl : l ≠ []) :
    chunksOf n l ≠ [] := by
  intro hx
  have h := chunksOf_length n l
  rw [hx] at h
  have hL : 0 < l.length := List.length_pos.2 hl
  rw [ceil_div_eq n _ hL hn] at h
  simp at h

lemma chunksOf_single (n : Nat) (l : Doc) (h1 : l ≠ []) (h2 : l.length ≤ n) :
    chunksOf n l = [l] := by
  have hL : 0 < l.length := List.length_pos.2 h1
  have hn : 0 < n := by omega
  unfold chunksOf
  rw [ceil_div_eq n _ hL hn, Nat.div_eq_of_lt (by omega)]
  have hgo : chunksOfGo n 1 l = [l.take n] := rfl
  rw [hgo, List.take_of_length_le h2]

lemma joinSpace_mem {ss : List Doc} {s : Doc} {c : Char}
    (hs : s ∈ ss) (hc : c ∈ s) : c ∈ joinSpace ss := by
  induction ss with
  | nil => simp at hs
  | cons t rest ih =>
    cases rest with
    | nil =>
      simp at hs
      rw [hs] at hc
      simpa [joinSpace] using hc
    | cons u us =>
      rcases List.mem_cons.1 hs with h | h
      · rw [h] at hc
        exact List.mem_append.2 (Or.inl hc)
      · exact List.mem_append.2 (Or.inr (List.mem_cons.2 (Or.inr (ih h))))

lemma joinSpace_length_le {ss : List Doc} {B : Nat}
    (h : ∀ s ∈ ss, s.length + 1 ≤ B) : (joinSpace ss).length ≤ ss.length * B := by
  induction ss with
  | nil => simp [joinSpace]
  | cons t rest ih =>
    cases rest with
    | nil =>
      have ht := h t (by simp)
      simp [joinSpace]
      omega
    | cons u us =>
      have ht := h t (by simp)
      have hrest := ih (fun s hs => h s (List.mem_cons.2 (Or.inr hs)))
      have hj : joinSpace (t :: u :: us) = t ++ ' ' :: joinSpace (u :: us) := rfl
      rw [hj, List.length_append]
      simp only [List.length_cons] at *
      rw [Nat.succ_mul]
      omega

lemma chunkPass_summaries_length_le (o : Oracle) (a b : Int) :
    ∀ cs : List Doc, (chunkPass o a b cs).1.length ≤ cs.length := by
  intro cs
  induction cs with
  | nil => simp [chunkPass]
  | cons c rest ih =>
    by_cases hc : pyStrip c = []
    · simp [chunkPass, hc]
      omega
    · simp [chunkPass, hc]
      omega

lemma chunkPass_summaries_mem (o : Oracle) (a b : Int) :
    ∀ (cs : List Doc) (s : Doc), s ∈ (chunkPass o a b cs).1 →
      ∃ c ∈ cs, pyStrip c ≠ [] ∧
        s = o (pyStrip c) (determine_max_length (pyStrip c) a b) b false := by
  intro cs
  induction cs with
  | nil => intro s h; simp [chunkPass] at h
  | cons c rest ih =>
    intro s h
    by_cases hc : pyStrip c = []
    · simp only [chunkPass, hc, if_pos] at h
      rcases ih s h with ⟨d, hd, hd2, hd3⟩
      exact ⟨d, List.mem_cons.2 (Or.inr hd), hd2, hd3⟩
    · simp only [chunkPass, hc, if_neg, not_false_iff] at h
      rcases List.mem_cons.1 h with h1 | h1
      · exact ⟨c, by simp, hc, h1⟩
      · rcases ih s h1 with ⟨d, hd, hd2, hd3⟩
        exact ⟨d, List.mem_cons.2 (Or.inr hd), hd2, hd3⟩

lemma chunkPass_calls_mem (o : Oracle) (a b : Int) :
    ∀ (cs : List Doc) (k : OracleCall), k ∈ (chunkPass o a b cs).2 →
      ∃ c ∈ cs, pyStrip c ≠ [] ∧
        k = ⟨pyStrip c, determine_max_length (pyStrip c) a b, b, false⟩ := by
  intro cs
  induction cs with
  | nil => intro k h; simp [chunkPass] at h
  | cons c rest ih =>
    intro k h
    by_cases hc : pyStrip c = []
    · simp only [chunkPass, hc, if_pos] at h
      rcases ih k h with ⟨d, hd, hd2, hd3⟩
      exact ⟨d, List.mem_cons.2 (Or.inr hd), hd2, hd3⟩
    · simp only [chunkPass, hc, if_neg, not_false_iff] at h
      rcases List.mem_cons.1 h with h1 | h1
      · exact ⟨c, by simp, hc, h1⟩
      · rcases ih k h1 with ⟨d, hd, hd2, hd3⟩
        exact ⟨d, List.mem_cons.2 (Or.inr hd), hd2, hd3⟩

lemma chunkPass_ne_nil (o : Oracle) (a b : Int) :
    ∀ (cs : List Doc) (c : Doc), c ∈ cs → pyStrip c ≠ [] →
      (chunkPass o a b cs).1 ≠ [] := by
  intro cs
  induction cs with
  | nil => intro c h; simp at h
  | cons d rest ih =>
    intro c h hc
    rcases List.mem_cons.1 h with h1 | h1
    · rw [h1] at hc
      simp [chunkPass, hc]
    · by_cases hd : pyStrip d = []
      · simp only [chunkPass, hd, if_pos]
        exact ih c h1 hc
      · simp [chunkPass, hd]

lemma chunkPass_congr (o1 o2 : Oracle) (a b : Int)
    (h : ∀ t m, o1 t m b false = o2 t m b false) :
    ∀ cs : List Doc, chunkPass o1 a b cs = chunkPass o2 a b cs := by
  intro cs
  induction cs with
  | nil => rfl
  | cons c rest ih =>
    by_cases hc : pyStrip c = []
    · simp only [chunkPass, hc, if_pos]
      exact ih
    · simp only [chunkPass, hc, if_neg, not_false_iff]
      rw [ih, h]

lemma chunkPass_calls_texts (o : Oracle) (a b : Int) :
    ∀ cs : List Doc, (chunkPass o a b cs).2.map (fun k => k.text) =
      (cs.filter (fun c => !(c.all isSpace))).map pyStrip := by
  intro cs
  induction cs with
  | nil => rfl
  | cons c rest ih =>
    by_cases hc : pyStrip c = []
    · have hall : c.all isSpace = true := List.all_eq_true.2 ((pyStrip_eq_nil_iff c).1 hc)
      simp only [chunkPass, hc, if_pos, List.filter_cons, hall]
      simpa using ih
    · have hall : c.all isSpace = false := by
        cases hall0 : c.all isSpace
        · rfl
        · exact absurd ((pyStrip_eq_nil_iff c).2 (List.all_eq_true.1 hall0)) hc
      simp only [chunkPass, hc, if_neg, not_false_iff, List.filter_cons, hall]
      simpa using ih

lemma sic_calls_spec (oracle : Oracle) (cs : Nat) (dml ml : Int) :
    ∀ (fuel : Nat) (text : Doc) (r : Doc × List OracleCall),
      summarize_in_chunks oracle fuel text cs dml ml = some r →
      ∀ k ∈ r.2, k.min_length = ml ∧ k.do_sample = false ∧
        k.max_length = determine_max_length k.text dml ml := by
  intro fuel
  induction fuel with
  | zero => intro text r h; simp [summarize_in_chunks] at h
  | succ n ih =>
    intro text r h k hk
    simp only [summarize_in_chunks] at h
    by_cases h1 : pyStrip text = []
    · rw [if_pos h1] at h
      rcases Option.some.inj h with rfl
      simp at hk
    · rw [if_neg h1] at h
      by_cases h2 : (pyStrip text).length ≤ cs
      · rw [if_pos h2] at h
        rcases Option.some.inj h with rfl
        simp only [List.mem_singleton] at hk
        subst hk
        exact ⟨rfl, rfl, rfl⟩
      · rw [if_neg h2] at h
        by_cases h3 : cs <
            (joinSpace (chunkPass oracle dml ml (chunksOf cs (pyStrip text))).1).length
        · rw [if_pos h3] at h
          rcases Option.map_eq_some'.1 h with ⟨r2, hr2, hr⟩
          rcases hr with rfl
          simp only [List.mem_append] at hk
          rcases hk with hk | hk
          · rcases chunkPass_calls_mem oracle dml ml _ k hk with ⟨c, _, _, hkk⟩
            subst hkk
            exact ⟨rfl, rfl, rfl⟩
          · exact ih _ r2 hr2 k hk
        · rw [if_neg h3] at h
          rcases Option.some.inj h with rfl
          simp only [List.mem_append, List.mem_singleton] at hk
          rcases hk with hk | hk
          · rcases chunkPass_calls_mem oracle dml ml _ k hk with ⟨c, _, _, hkk⟩
            subst hkk
            exact ⟨rfl, rfl, rfl⟩
          · subst hk
            exact ⟨rfl, rfl, rfl⟩

lemma sic_congr (o1 o2 : Oracle) (cs : Nat) (dml ml : Int)
    (h : ∀ t a b, o1 t a b false = o2 t a b false) :
    ∀ (fuel : Nat) (text : Doc),
      summarize_in_chunks o1 fuel text cs dml ml =
        summarize_in_chunks o2 fuel text cs dml ml := by
  intro fuel
  induction fuel with
  | zero => intro text; rfl
  | succ n ih =>
    intro text
    simp only [summarize_in_chunks]
    by_cases h1 : pyStrip text = []
    · rw [if_pos h1, if_pos h1]
    · rw [if_neg h1, if_neg h1]
      by_cases h2 : (pyStrip text).length ≤ cs
      · rw [if_pos h2, if_pos h2, h]
      · rw [if_neg h2, if_neg h2]
        have hcp := chunkPass_congr o1 o2 dml ml (fun t m => h t m ml)
          (chunksOf cs (pyStrip text))
        rw [hcp, ih, h]

lemma chunkPass_on_strip_ne_nil (oracle : Oracle) (a b : Int) (cs : Nat) (text : Doc)
    (hcs : 0 < cs) (h : pyStrip text ≠ []) :
    (chunkPass oracle a b (chunksOf cs (pyStrip text))).1 ≠ [] := by
  rcases pyStrip_content text h with ⟨x, hx, hxs⟩
  have hflat : (chunksOf cs (pyStrip text)).flatten = pyStrip text :=
    chunksOf_flatten cs _ hcs
  have hxmem : x ∈ (chunksOf cs (pyStrip text)).flatten := by rw [hflat]; exact hx
  rcases List.mem_flatten.1 hxmem with ⟨c, hc, hxc⟩
  have hcne : pyStrip c ≠ [] := by
    intro hnil
    have hxall := (pyStrip_eq_nil_iff c).1 hnil x hxc
    rw [hxs] at hxall
    exact Bool.false_ne_true hxall
  exact chunkPass_ne_nil oracle a b _ c hc hcne

lemma sic_content (oracle : Oracle) (cs : Nat) (hcs : 0 < cs)
    (ho : ∀ t a b s, hasContent (oracle t a b s)) (dml ml : Int) :
    ∀ (fuel : Nat) (text : Doc) (r : Doc × List OracleCall),
      summarize_in_chunks oracle fuel text cs dml ml = some r →
      ∀ k ∈ r.2, hasContent k.text := by
  intro fuel
  induction fuel with
  | zero => intro text r h; simp [summarize_in_chunks] at h
  | succ n ih =>
    intro text r h k hk
    simp only [summarize_in_chunks] at h
    by_cases h1 : pyStrip text = []
    · rw [if_pos h1] at h
      rcases Option.some.inj h with rfl
      simp at hk
    · rw [if_neg h1] at h
      by_cases h2 : (pyStrip text).length ≤ cs
      · rw [if_pos h2] at h
        rcases Option.some.inj h with rfl
        simp only [List.mem_singleton] at hk
        subst hk
        exact pyStrip_content text h1
      · rw [if_neg h2] at h
        have hcombined : hasContent
            (joinSpace (chunkPass oracle dml ml (chunksOf cs (pyStrip text))).1) := by
          have hne := chunkPass_on_strip_ne_nil oracle dml ml cs text hcs h1
          cases hss : (chunkPass oracle dml ml (chunksOf cs (pyStrip text))).1 with
          | nil => exact absurd hss hne
          | cons s0 srest =>
            have hs0 : s0 ∈ (chunkPass oracle dml ml (chunksOf cs (pyStrip text))).1 := by
              rw [hss]; simp
            rcases chunkPass_summaries_mem oracle dml ml _ s0 hs0 with ⟨c, _, _, hso⟩
            rcases (hso ▸ ho (pyStrip c) (determine_max_length (pyStrip c) dml ml) ml false :
              hasContent s0) with ⟨x, hx, hxs⟩
            exact ⟨x, joinSpace_mem (List.mem_cons_self s0 srest) hx, hxs⟩
        by_cases h3 : cs <
            (joinSpace (chunkPass oracle dml ml (chunksOf cs (pyStrip text))).1).length
        · rw [if_pos h3] at h
          rcases Option.map_eq_some'.1 h with ⟨r2, hr2, hr⟩
          rcases hr with rfl
          simp only [List.mem_append] at hk
          rcases hk with hk | hk
          · rcases chunkPass_calls_mem oracle dml ml _ k hk with ⟨c, _, hcne, hkk⟩
            subst hkk
            exact pyStrip_content c hcne
          · exact ih _ r2 hr2 k hk
        · rw [if_neg h3] at h
          rcases Option.some.inj h with rfl
          simp only [List.mem_append, List.mem_singleton] at hk
          rcases hk with hk | hk
          · rcases chunkPass_calls_mem oracle dml ml _ k hk with ⟨c, _, hcne, hkk⟩
            subst hkk
            exact pyStrip_content c hcne
          · subst hk
            exact hcombined

lemma combined_length_bound (oracle : Oracle) (cs : Nat) (dml ml : Int)
    (hb : ∀ t a b s, 2 * ((oracle t a b s).length + 1) ≤ cs)
    (t : Doc) (ht : cs < t.length) :
    (joinSpace (chunkPass oracle dml ml (chunksOf cs t)).1).length + 1 ≤ t.length := by
  have hcs : 0 < cs := by have h2 := hb [] 0 0 false; omega
  have hL : 0 < t.length := by omega
  have hsum : ∀ s ∈ (chunkPass oracle dml ml (chunksOf cs t)).1,
      s.length + 1 ≤ cs / 2 := by
    intro s hs
    rcases chunkPass_summaries_mem oracle dml ml _ s hs with ⟨c, _, _, hso⟩
    have hbs := hb (pyStrip c) (determine_max_length (pyStrip c) dml ml) ml false
    rw [← hso] at hbs
    omega
  have hjoin := joinSpace_length_le hsum
  have hplen : (chunkPass oracle dml ml (chunksOf cs t)).1.length ≤
      (chunksOf cs t).length := chunkPass_summaries_length_le oracle dml ml _
  have hn : (chunksOf cs t).length = (t.length - 1) / cs + 1 := by
    rw [chunksOf_length, ceil_div_eq cs _ hL hcs]
  have hq1 : 1 ≤ (t.length - 1) / cs := by
    rw [Nat.one_le_div_iff hcs]
    omega
  have hqcs : (t.length - 1) / cs * cs ≤ t.length - 1 := Nat.div_mul_le_self _ _
  have hstep : ((t.length - 1) / cs + 1) * (cs / 2) ≤ (t.length - 1) / cs * cs := by
    have hd2 : 2 * (cs / 2) ≤ cs := by omega
    calc ((t.length - 1) / cs + 1) * (cs / 2)
        = (t.length - 1) / cs * (cs / 2) + cs / 2 := by ring
      _ ≤ (t.length - 1) / cs * (cs / 2) + (t.length - 1) / cs * (cs / 2) := by
          have hdq : cs / 2 ≤ (t.length - 1) / cs * (cs / 2) :=
            Nat.le_mul_of_pos_left _ (by omega)
          omega
      _ = (t.length - 1) / cs * (2 * (cs / 2)) := by ring
      _ ≤ (t.length - 1) / cs * cs := Nat.mul_le_mul_left _ hd2
  have hj2 : (joinSpace (chunkPass oracle dml ml (chunksOf cs t)).1).length ≤
      ((t.length - 1) / cs + 1) * (cs / 2) := by
    refine le_trans hjoin ?_
    exact Nat.mul_le_mul_right _ (by omega)
  omega

lemma sic_total (oracle : Oracle) (cs : Nat) (dml ml : Int)
    (hb : ∀ t a b s, 2 * ((oracle t a b s).length + 1) ≤ cs) :
    ∀ (fuel : Nat) (text : Doc), text.length < fuel →
      (summarize_in_chunks oracle fuel text cs dml ml).isSome = true := by
  intro fuel
  induction fuel with
  | zero => intro text h; omega
  | succ n ih =>
    intro text h
    simp only [summarize_in_chunks]
    by_cases h1 : pyStrip text = []
    · rw [if_pos h1]; rfl
    · rw [if_neg h1]
      by_cases h2 : (pyStrip text).length ≤ cs
      · rw [if_pos h2]; rfl
      · rw [if_neg h2]
        by_cases h3 : cs <
            (joinSpace (chunkPass oracle dml ml (chunksOf cs (pyStrip text))).1).length
        · rw [if_pos h3]
          rw [Option.isSome_map']
          apply ih
          have hcb := combined_length_bound oracle cs dml ml hb (pyStrip text)
            (by omega)
          have hsl := pyStrip_length_le text
          omega
        · rw [if_neg h3]; rfl

lemma determine_le (t : Doc) (a b : Int) : determine_max_length t a b ≤ a :=
  min_le_left _ _

lemma le_determine (t : Doc) (a b : Int) (h : b ≤ a) : b ≤ determine_max_length t a b :=
  le_min h (le_max_right _ _)

lemma determine_of_lt (t : Doc) (a b : Int) (h : a < b) : determine_max_length t a b = a :=
  min_eq_left (le_trans (le_of_lt h) (le_max_right _ _))

lemma st_delegates (oracle : Oracle) (fuel : Nat) (text : Doc) (cs : Nat) (im fm : Int)
    (hcs : 0 < cs) (h : pyStrip text ≠ []) :
    summarize_text oracle fuel text cs im fm =
      (summarize_in_chunks oracle fuel
          (joinSpace (chunkPass oracle im 50 (chunksOf cs (pyStrip text))).1) cs fm
          50).map
        (fun r => (r.1, (chunkPass oracle im 50 (chunksOf cs (pyStrip text))).2 ++ r.2)) := by
  simp only [summarize_text]
  rw [if_neg h, if_neg (chunkPass_on_strip_ne_nil oracle im 50 cs text hcs h)]

lemma st_calls_spec (oracle : Oracle) (cs : Nat) (im fm : Int) (fuel : Nat) (text : Doc)
    (r : Doc × List OracleCall) (h : summarize_text oracle fuel text cs im fm = some r) :
    ∀ k ∈ r.2, k.min_length = 50 ∧ k.do_sample = false ∧
      (k.max_length = determine_max_length k.text im 50 ∨
        k.max_length = determine_max_length k.text fm 50) := by
  intro k hk
  simp only [summarize_text] at h
  by_cases h1 : pyStrip text = []
  · rw [if_pos h1] at h
    rcases Option.some.inj h with rfl
    simp at hk
  · rw [if_neg h1] at h
    by_cases h2 : (chunkPass oracle im 50 (chunksOf cs (pyStrip text))).1 = []
    · rw [if_pos h2] at h
      rcases Option.some.inj h with rfl
      rcases chunkPass_calls_mem oracle im 50 _ k hk with ⟨c, _, _, hkk⟩
      subst hkk
      exact ⟨rfl, rfl, Or.inl rfl⟩
    · rw [if_neg h2] at h
      rcases Option.map_eq_some'.1 h with ⟨r2, hr2, hr⟩
      rcases hr with rfl
      simp only [List.mem_append] at hk
      rcases hk with hk | hk
      · rcases chunkPass_calls_mem oracle im 50 _ k hk with ⟨c, _, _, hkk⟩
        subst hkk
        exact ⟨rfl, rfl, Or.inl rfl⟩
      · rcases sic_calls_spec oracle cs fm 50 fuel _ r2 hr2 k hk with ⟨ha, hb2, hc⟩
        exact ⟨ha, hb2, Or.inr hc⟩

lemma st_content (oracle : Oracle) (cs : Nat) (hcs : 0 < cs)
    (ho : ∀ t a b s, hasContent (oracle t a b s)) (im fm : Int) (fuel : Nat)
    (text : Doc) (r : Doc × List OracleCall)
    (h : summarize_text oracle fuel text cs im fm = some r) :
    ∀ k ∈ r.2, hasContent k.text := by
  intro k hk
  simp only [summarize_text] at h
  by_cases h1 : pyStrip text = []
  · rw [if_pos h1] at h
    rcases Option.some.inj h with rfl
    simp at hk
  · rw [if_neg h1] at h
    by_cases h2 : (chunkPass oracle im 50 (chunksOf cs (pyStrip text))).1 = []
    · rw [if_pos h2] at h
      rcases Option.some.inj h with rfl
      rcases chunkPass_calls_mem oracle im 50 _ k hk with ⟨c, _, hcne, hkk⟩
      subst hkk
      exact pyStrip_content c hcne
    · rw [if_neg h2] at h
      rcases Option.map_eq_some'.1 h with ⟨r2, hr2, hr⟩
      rcases hr with rfl
      simp only [List.mem_append] at hk
      rcases hk with hk | hk
      · rcases chunkPass_calls_mem oracle im 50 _ k hk with ⟨c, _, hcne, hkk⟩
        subst hkk
        exact pyStrip_content c hcne
      · exact sic_content oracle cs hcs ho fm 50 fuel _ r2 hr2 k hk

lemma sic_constA_none : ∀ fuel,
    summarize_in_chunks constA fuel ("a a".data) 1 500 50 = none := by
  intro fuel
  induction fuel with
  | zero => rfl
  | succ n ih =>
    have hstep : summarize_in_chunks constA (n + 1) ("a a".data) 1 500 50 =
        (summarize_in_chunks constA n ("a a".data) 1 500 50).map
          (fun r => (r.1, [⟨"a".data, 50, 50, false⟩, ⟨"a".data, 50, 50, false⟩] ++ r.2)) :=
      rfl
    rw [hstep, ih]
    rfl

/-- Claim C2 counterexample: with the constant oracle returning the
single word "a" (hence at most 500 words per output, satisfying the
claimed hypothesis), summarize_in_chunks on the trimmed non-empty
input "a a" with chunk_size 1 never reaches its base case: no amount
of fuel produces a result, because the combined chunk summaries equal
the input again at every level. -/
theorem C2_counterexample :
    (∀ t a b s, ((pySplit (constA t a b s)).length : Int) ≤ 500) ∧
    ¬ ∃ (fuel : Nat) (r : Doc × List OracleCall),
        summarize_in_chunks constA fuel ("a a".data) 1 500 50 = some r := by
  constructor
  · intro t a b s
    show ((pySplit ("a".data)).length : Int) ≤ 500
    decide
  · rintro ⟨fuel, r, hr⟩
    rw [sic_constA_none fuel] at hr
    exact Option.noConfusion hr

/-- Claim C2, amended: the recursion of summarize_in_chunks terminates
under the stronger hypothesis that every oracle output is short in
characters rather than in words, namely 2 * (length + 1) <= chunk_size;
then fuel equal to the text length plus one always suffices. -/
theorem C2_termination_amended (oracle : Oracle) (cs : Nat) (dml ml : Int)
    (hb : ∀ t a b s, 2 * ((oracle t a b s).length + 1) ≤ cs) (text : Doc) :
    ∃ r, summarize_in_chunks oracle (text.length + 1) text cs dml ml = some r :=
  Option.isSome_iff_exists.1
    (sic_total oracle cs dml ml hb (text.length + 1) text (by omega))

/-- Witness for C2_termination_amended at the empty-summary oracle,
chunk_size 2 and input "abc". -/
theorem C2_termination_amended_witness :
    ∃ r, summarize_in_chunks constEmpty (("abc".data).length + 1) ("abc".data) 2 500 50
      = some r :=
  C2_termination_amended constEmpty 2 500 50
    (fun t a b s => by show 2 * (List.length ([] : Doc) + 1) ≤ 2; decide) ("abc".data)

/-- Claim C3 counterexample: with default_max 10 and min_length 50 the
single oracle call of a short run receives max_length 10, which is
smaller than min_length, so the claimed bound does not hold for all
parameter values. -/
theorem C3_counterexample :
    summarize_in_chunks constOk 1 ("hi".data) 1024 10 50 =
      some ("ok".data, [⟨"hi".data, 10, 50, false⟩]) ∧ ¬ ((50 : Int) ≤ 10) :=
  ⟨by decide, by decide⟩

/-- Claim C3, amended: for every parameter value and every oracle call
made by summarize_in_chunks, max_length <= default_max_length holds
unconditionally, min_length <= max_length holds whenever min_length <=
default_max_length, and in the regime default_max_length < min_length
the call receives exactly max_length = default_max_length (hence below
min_length); every oracle call made by summarize_text is planned
against one of the two defaults d (intermediate_max or final_max) with
the same three facts at its fixed min_length 50. -/
theorem C3_bounds_amended (oracle : Oracle) (fuel : Nat) (text : Doc) (cs : Nat)
    (dml ml im fm : Int) :
    (∀ r, summarize_in_chunks oracle fuel text cs dml ml = some r →
      ∀ k ∈ r.2, k.max_length ≤ dml ∧ (ml ≤ dml → ml ≤ k.max_length) ∧
        (dml < ml → k.max_length = dml)) ∧
    (∀ r, summarize_text oracle fuel text cs im fm = some r →
      ∀ k ∈ r.2, ∃ d : Int, (d = im ∨ d = fm) ∧ k.max_length ≤ d ∧
        (50 ≤ d → 50 ≤ k.max_length) ∧ (d < 50 → k.max_length = d)) := by
  constructor
  · intro r hr k hk
    rcases sic_calls_spec oracle cs dml ml fuel text r hr k hk with ⟨_, _, hmax⟩
    rw [hmax]
    exact ⟨determine_le _ _ _, fun h => le_determine _ _ _ h,
      fun h => determine_of_lt _ _ _ h⟩
  · intro r hr k hk
    rcases st_calls_spec oracle cs im fm fuel text r hr k hk with ⟨_, _, hmax⟩
    rcases hmax with hmax | hmax
    · refine ⟨im, Or.inl rfl, ?_, ?_, ?_⟩
      · rw [hmax]; exact determine_le _ _ _
      · intro h; rw [hmax]; exact le_determine _ _ _ h
      · intro h; rw [hmax]; exact determine_of_lt _ _ _ h
    · refine ⟨fm, Or.inr rfl, ?_, ?_, ?_⟩
      · rw [hmax]; exact determine_le _ _ _
      · intro h; rw [hmax]; exact le_determine _ _ _ h
      · intro h; rw [hmax]; exact determine_of_lt _ _ _ h

/-- Witness for C3_bounds_amended, instantiated in the regime
default_max_length 10 < min_length 50 on a run that completes with a
non-empty trace. -/
theorem C3_bounds_amended_witness :
    (summarize_in_chunks constOk 1 ("hi".data) 1024 10 50).isSome = true ∧
    (summarize_text constOk 1 ("hi".data) 1024 500 500).isSome = true ∧
    (∀ r, summarize_in_chunks constOk 1 ("hi".data) 1024 10 50 = some r →
      ∀ k ∈ r.2, k.max_length ≤ 10 ∧ ((50 : Int) ≤ 10 → 50 ≤ k.max_length) ∧
        ((10 : Int) < 50 → k.max_length = 10)) ∧
    (∀ r, summarize_text constOk 1 ("hi".data) 1024 500 500 = some r →
      ∀ k ∈ r.2, ∃ d : Int, (d = 500 ∨ d = 500) ∧ k.max_length ≤ d ∧
        (50 ≤ d → 50 ≤ k.max_length) ∧ (d < 50 → k.max_length = d)) :=
  ⟨by decide, by decide,
    (C3_bounds_amended constOk 1 ("hi".data) 1024 10 50 500 500).1,
    (C3_bounds_amended constOk 1 ("hi".data) 1024 10 50 500 500).2⟩

/-- Claim C4 counterexample: on the input " hi " (4 characters, within
chunk_size, trimmed form non-empty) the single oracle call receives
the stripped text "hi", not the unmodified input. -/
theorem C4_counterexample :
    summarize_in_chunks constOk 1 (" hi ".data) 1024 500 50 =
      some ("ok".data, [⟨"hi".data, 50, 50, false⟩]) ∧
    "hi".data ≠ " hi ".data :=
  ⟨by decide, by decide⟩

/-- Claim C4, amended: for every text whose trimmed form is non-empty
and whose length is within chunk_size, summarize_in_chunks issues
exactly one oracle call, and that call receives the trimmed input text
(which is the unmodified input exactly when the input carries no
leading or trailing whitespace). -/
theorem C4_base_case_amended (oracle : Oracle) (fuel : Nat) (text : Doc) (cs : Nat)
    (dml ml : Int) (h1 : pyStrip text ≠ []) (h2 : text.length ≤ cs) :
    summarize_in_chunks oracle (fuel + 1) text cs dml ml =
      some (oracle (pyStrip text) (determine_max_length (pyStrip text) dml ml) ml false,
        [⟨pyStrip text, determine_max_length (pyStrip text) dml ml, ml, false⟩]) := by
  simp only [summarize_in_chunks]
  rw [if_neg h1, if_pos (le_trans (pyStrip_length_le text) h2)]

/-- Witness for C4_base_case_amended at the input " hi ". -/
theorem C4_base_case_amended_witness :
    summarize_in_chunks constOk (0 + 1) (" hi ".data) 1024 500 50 =
      some (constOk (pyStrip (" hi ".data))
          (determine_max_length (pyStrip (" hi ".data)) 500 50) 50 false,
        [⟨pyStrip (" hi ".data), determine_max_length (pyStrip (" hi ".data)) 500 50,
          50, false⟩]) :=
  C4_base_case_amended constOk 0 (" hi ".data) 1024 500 50 (by decide) (by decide)

/-- Claim C5: for positive chunk_size smaller than the text length the
chunking step produces exactly ceil(len/chunk_size) chunks, all of
exactly chunk_size characters except possibly the last, in order;
their concatenation reconstructs the text; and the chunks dropped by
the per-chunk loop are precisely the whitespace-only ones (the others
are passed on, stripped, in order). -/
theorem C5_chunker (text : Doc) (cs : Nat) (h1 : 0 < cs) (h2 : cs < text.length) :
    (chunksOf cs text).length = (text.length + cs - 1) / cs ∧
    (chunksOf cs text).flatten = text ∧
    (∀ c ∈ (chunksOf cs text).dropLast, c.length = cs) ∧
    (∀ c ∈ chunksOf cs text, c.length ≤ cs) ∧
    (∀ (oracle : Oracle) (a b : Int),
      (chunkPass oracle a b (chunksOf cs text)).2.map (fun k => k.text) =
        ((chunksOf cs text).filter (fun c => !(c.all isSpace))).map pyStrip) := by
  have htne : text ≠ [] := by
    intro hx
    rw [hx] at h2
    simp at h2
  refine ⟨chunksOf_length cs text, chunksOf_flatten cs text h1, ?_, ?_, ?_⟩
  · intro c hc
    exact chunksOf_dropLast_full cs text h1 htne c hc
  · intro c hc
    exact chunksOf_mem_length_le cs text c hc
  · intro oracle a b
    exact chunkPass_calls_texts oracle a b _

/-- Witness for C5_chunker on the input "abcde" with chunk_size 2. -/
theorem C5_chunker_witness :
    (chunksOf 2 ("abcde".data)).length = (("abcde".data).length + 2 - 1) / 2 ∧
    (chunksOf 2 ("abcde".data)).flatten = "abcde".data ∧
    (∀ c ∈ (chunksOf 2 ("abcde".data)).dropLast, c.length = 2) ∧
    (∀ c ∈ chunksOf 2 ("abcde".data), c.length ≤ 2) ∧
    (∀ (oracle : Oracle) (a b : Int),
      (chunkPass oracle a b (chunksOf 2 ("abcde".data))).2.map (fun k => k.text) =
        ((chunksOf 2 ("abcde".data)).filter (fun c => !(c.all isSpace))).map pyStrip) :=
  C5_chunker ("abcde".data) 2 (by decide) (by decide)

/-- Claim C6: for trimmed non-empty input, summarize_text performs one
unconditional chunk-and-summarize pass over the stripped text and then
delegates to summarize_in_chunks on the space-joined results with
parameters (chunk_size, final_max, 50); in particular even when the
text fits in a single chunk, that chunk (the whole stripped text) is
summarized with max_length planned against intermediate_max before the
delegation. -/
theorem C6_two_pass (oracle : Oracle) (fuel : Nat) (text : Doc) (cs : Nat) (im fm : Int)
    (hcs : 0 < cs) (h : pyStrip text ≠ []) :
    summarize_text oracle fuel text cs im fm =
      (summarize_in_chunks oracle fuel
          (joinSpace (chunkPass oracle im 50 (chunksOf cs (pyStrip text))).1) cs fm
          50).map
        (fun r => (r.1, (chunkPass oracle im 50 (chunksOf cs (pyStrip text))).2 ++ r.2)) ∧
    ((pyStrip text).length ≤ cs →
      summarize_text oracle fuel text cs im fm =
        (summarize_in_chunks oracle fuel
            (oracle (pyStrip text) (determine_max_length (pyStrip text) im 50) 50 false)
            cs fm 50).map
          (fun r => (r.1,
            OracleCall.mk (pyStrip text) (determine_max_length (pyStrip text) im 50) 50
              false :: r.2))) := by
  refine ⟨st_delegates oracle fuel text cs im fm hcs h, ?_⟩
  intro hlen
  rw [st_delegates oracle fuel text cs im fm hcs h, chunksOf_single cs (pyStrip text) h hlen]
  have hc2 : pyStrip (pyStrip text) = pyStrip text := pyStrip_idem text
  have hpass : chunkPass oracle im 50 [pyStrip text] =
      ([oracle (pyStrip text) (determine_max_length (pyStrip text) im 50) 50 false],
        [⟨pyStrip text, determine_max_length (pyStrip text) im 50, 50, false⟩]) := by
    simp only [chunkPass, hc2, if_neg h]
  rw [hpass]
  rfl

/-- Witness for C6_two_pass on the single-chunk input "hi". -/
theorem C6_two_pass_witness :
    summarize_text constOk 1 ("hi".data) 1024 500 500 =
      (summarize_in_chunks constOk 1
          (joinSpace (chunkPass constOk 500 50 (chunksOf 1024 (pyStrip ("hi".data)))).1)
          1024 500 50).map
        (fun r =>
          (r.1, (chunkPass constOk 500 50 (chunksOf 1024 (pyStrip ("hi".data)))).2 ++ r.2)) ∧
    ((pyStrip ("hi".data)).length ≤ 1024 →
      summarize_text constOk 1 ("hi".data) 1024 500 500 =
        (summarize_in_chunks constOk 1
            (constOk (pyStrip ("hi".data))
              (determine_max_length (pyStrip ("hi".data)) 500 50) 50 false)
            1024 500 50).map
          (fun r => (r.1,
            OracleCall.mk (pyStrip ("hi".data))
              (determine_max_length (pyStrip ("hi".data)) 500 50) 50 false :: r.2))) :=
  C6_two_pass constOk 1 ("hi".data) 1024 500 500 (by decide) (by decide)

/-- Claim C7: on empty or whitespace-only input, both entry points
return the literal sentinel "No content to summarize." with an empty
oracle-call trace, for every chunk_size and all length parameters. -/
theorem C7_sentinel (oracle : Oracle) (text : Doc) (h : text.all isSpace = true)
    (fuel : Nat) (cs : Nat) (dml ml im fm : Int) :
    summarize_in_chunks oracle (fuel + 1) text cs dml ml = some (sentinel, []) ∧
    summarize_text oracle fuel text cs im fm = some (sentinel, []) := by
  have hstrip : pyStrip text = [] := (pyStrip_eq_nil_iff text).2 (List.all_eq_true.1 h)
  constructor
  · simp only [summarize_in_chunks]
    rw [if_pos hstrip]
  · simp only [summarize_text]
    rw [if_pos hstrip]

/-- Witness for C7_sentinel on the whitespace-only input " ". -/
theorem C7_sentinel_witness :
    summarize_in_chunks constOk (0 + 1) (" ".data) 7 9 8 = some (sentinel, []) ∧
    summarize_text constOk 0 (" ".data) 7 6 5 = some (sentinel, []) :=
  C7_sentinel constOk (" ".data) (by decide) 0 7 9 8 6 5

/-- Claim C8 counterexample: with an oracle that returns empty
summaries, the final pass of summarize_in_chunks on the combined chunk
summaries invokes the oracle on the whitespace-only text " ": the code
does not re-check the combined text before the final call. -/
theorem C8_counterexample :
    summarize_in_chunks constEmpty 1 ("ab".data) 1 500 50 =
      some ([], [⟨"a".data, 50, 50, false⟩, ⟨"b".data, 50, 50, false⟩,
        ⟨" ".data, 50, 50, false⟩]) ∧
    (" ".data).all isSpace = true :=
  ⟨by decide, by decide⟩

/-- Claim C8, amended: provided chunk_size is positive and every
oracle output contains a non-whitespace character, no oracle call made
by summarize_in_chunks or summarize_text is on empty or
whitespace-only text. -/
theorem C8_no_blank_calls_amended (oracle : Oracle) (cs : Nat) (hcs : 0 < cs)
    (ho : ∀ t a b s, hasContent (oracle t a b s)) (fuel : Nat) (text : Doc)
    (dml ml im fm : Int) :
    (∀ r, summarize_in_chunks oracle fuel text cs dml ml = some r →
      ∀ k ∈ r.2, hasContent k.text) ∧
    (∀ r, summarize_text oracle fuel text cs im fm = some r →
      ∀ k ∈ r.2, hasContent k.text) :=
  ⟨fun r hr => sic_content oracle cs hcs ho dml ml fuel text r hr,
    fun r hr => st_content oracle cs hcs ho im fm fuel text r hr⟩

/-- Witness for C8_no_blank_calls_amended at the oracle constOk on a
two-chunk input whose run completes: both runs return some and their
three oracle calls include the final pass on the combined summaries
"ok ok". -/
theorem C8_no_blank_calls_amended_witness :
    (summarize_in_chunks constOk 1 ("abcdefghij".data) 8 500 50).isSome = true ∧
    (summarize_text constOk 1 ("abcdefghij".data) 8 500 500).isSome = true ∧
    (∀ r, summarize_in_chunks constOk 1 ("abcdefghij".data) 8 500 50 = some r →
      ∀ k ∈ r.2, hasContent k.text) ∧
    (∀ r, summarize_text constOk 1 ("abcdefghij".data) 8 500 500 = some r →
      ∀ k ∈ r.2, hasContent k.text) := by
  refine ⟨by decide, by decide, ?_, ?_⟩
  · exact (C8_no_blank_calls_amended constOk 8 (by decide)
      (fun t a b s => ⟨'o', by show 'o' ∈ "ok".data; decide, by decide⟩) 1
      ("abcdefghij".data) 500 50 500 500).1
  · exact (C8_no_blank_calls_amended constOk 8 (by decide)
      (fun t a b s => ⟨'o', by show 'o' ∈ "ok".data; decide, by decide⟩) 1
      ("abcdefghij".data) 500 50 500 500).2

/-- Claim C9: the run of summarize_in_chunks depends only on the
oracle's deterministic-decoding behavior, since every oracle call is
made with do_sample false; hence two oracles agreeing whenever
do_sample is false produce identical results and traces, and repeated
runs with one deterministic oracle are trivially identical. -/
theorem C9_deterministic (o1 o2 : Oracle)
    (h : ∀ t a b, o1 t a b false = o2 t a b false)
    (fuel : Nat) (text : Doc) (cs : Nat) (dml ml : Int) :
    summarize_in_chunks o1 fuel text cs dml ml =
      summarize_in_chunks o2 fuel text cs dml ml ∧
    (∀ r, summarize_in_chunks o1 fuel text cs dml ml = some r →
      ∀ k ∈ r.2, k.do_sample = false) := by
  refine ⟨sic_congr o1 o2 cs dml ml h fuel text, ?_⟩
  intro r hr k hk
  exact (sic_calls_spec o1 cs dml ml fuel text r hr k hk).2.1

/-- Witness for C9_deterministic: flipOracle behaves like constOk when
do_sample is false although they differ when it is true. -/
theorem C9_deterministic_witness :
    summarize_in_chunks flipOracle 2 ("hi".data) 1024 500 50 =
      summarize_in_chunks constOk 2 ("hi".data) 1024 500 50 ∧
    (∀ r, summarize_in_chunks flipOracle 2 ("hi".data) 1024 500 50 = some r →
      ∀ k ∈ r.2, k.do_sample = false) :=
  C9_deterministic flipOracle constOk (fun _ _ _ => rfl) 2 ("hi".data) 1024 500 50

/-- Claim C10: for trimmed non-empty input and positive chunk_size, at
least one chunk survives stripping, so the list of chunk summaries of
summarize_text is non-empty and the post-loop sentinel branch is not
taken: the function proceeds to the delegation to summarize_in_chunks
on the combined summaries. -/
theorem C10_unreachable_sentinel (oracle : Oracle) (fuel : Nat) (text : Doc) (cs : Nat)
    (im fm : Int) (hcs : 0 < cs) (h : pyStrip text ≠ []) :
    (chunkPass oracle im 50 (chunksOf cs (pyStrip text))).1 ≠ [] ∧
    summarize_text oracle fuel text cs im fm =
      (summarize_in_chunks oracle fuel
          (joinSpace (chunkPass oracle im 50 (chunksOf cs (pyStrip text))).1) cs fm
          50).map
        (fun r => (r.1, (chunkPass oracle im 50 (chunksOf cs (pyStrip text))).2 ++ r.2)) :=
  ⟨chunkPass_on_strip_ne_nil oracle im 50 cs text hcs h,
    st_delegates oracle fuel text cs im fm hcs h⟩

/-- Witness for C10_unreachable_sentinel on the input "a b" with
chunk_size 2. -/
theorem C10_unreachable_sentinel_witness :
    (chunkPass constOk 500 50 (chunksOf 2 (pyStrip ("a b".data)))).1 ≠ [] ∧
    summarize_text constOk 3 ("a b".data) 2 500 500 =
      (summarize_in_chunks constOk 3
          (joinSpace (chunkPass constOk 500 50 (chunksOf 2 (pyStrip ("a b".data)))).1) 2 500
          50).map
        (fun r =>
          (r.1, (chunkPass constOk 500 50 (chunksOf 2 (pyStrip ("a b".data)))).2 ++ r.2)) :=
  C10_unreachable_sentinel constOk 3 ("a b".data) 2 500 500 (by decide) (by decide)

end GenSum
